import Mathlib

/-!
Verification of the core solver of connect4-qml.

The development shallowly embeds the two source files of the repository:

* `src/brain/Solver.cpp` — `Solver::negamax`, `Solver::solve`,
  `Solver::getBestMove` and the column-exploration order built in the
  `Solver` constructor;
* `src/brain/OpeningBook.hpp` — the opening-book loader and accessor.

C++ integer division and remainder truncate toward zero, so every `/ 2`
of the source is embedded as `Int.tdiv` (and `%` as `Int.tmod`), never as
Lean's flooring `/ : Int → Int → Int`.

The `Position` class, the `TranspositionTable` store and the
`MoveSorter`/`MoveChooser` helpers are external collaborators of the
solver that are not part of the two source files above; they are
modelled from the specification where needed (see `Game`, `Table` and
the comments on the individual definitions).
-/

/-- Truncating division by two, as computed by `Int.tdiv`, sandwiched by
linear inequalities usable by `omega`: it rounds toward zero. -/
theorem tdiv2_facts (a : Int) :
    (0 ≤ a → 2 * a.tdiv 2 ≤ a ∧ a < 2 * a.tdiv 2 + 2) ∧
    (a ≤ 0 → a ≤ 2 * a.tdiv 2 ∧ 2 * a.tdiv 2 < a + 2) := by
  cases a with
  | ofNat n =>
    have h : (Int.ofNat n).tdiv 2 = Int.ofNat (n / 2) := rfl
    rw [h]; simp only [Int.ofNat_eq_coe]; omega
  | negSucc n =>
    have h : (Int.negSucc n).tdiv 2 = -Int.ofNat ((n+1) / 2) := rfl
    rw [h]; simp only [Int.ofNat_eq_coe, Int.negSucc_eq]; omega

/-- Truncating division by two is monotone. -/
theorem tdiv2_mono {a b : Int} (h : a ≤ b) : a.tdiv 2 ≤ b.tdiv 2 := by
  have h1 := tdiv2_facts a
  have h2 := tdiv2_facts b
  omega

/-!
## The transposition-table score encoding

`Solver::negamax` stores a lower bound for a score `s` as the byte
`s + MAX_SCORE - 2*MIN_SCORE + 2` (Solver.cpp line 102) and an upper
bound as the byte `s - MIN_SCORE + 1` (line 109).  A read byte `v` is
decoded as the lower bound `v + 2*MIN_SCORE - MAX_SCORE - 2` when
`v > MAX_SCORE - MIN_SCORE + 1` (lines 66-67) and as the upper bound
`v + MIN_SCORE - 1` otherwise (lines 72-73); `v = 0` means absent.
The constants `MIN_SCORE`/`MAX_SCORE` live in the external `Position`
class, so the four maps are parameterised by them.
-/

/-- Lower-bound encoding `score + MAX_SCORE - 2*MIN_SCORE + 2`
(Solver.cpp line 102). -/
def encodeLower (minS maxS s : Int) : Int := s + maxS - 2 * minS + 2

/-- Lower-bound decoding `val + 2*MIN_SCORE - MAX_SCORE - 2`
(Solver.cpp line 67). -/
def decodeLower (minS maxS v : Int) : Int := v + 2 * minS - maxS - 2

/-- Upper-bound encoding `alpha - MIN_SCORE + 1` (Solver.cpp line 109). -/
def encodeUpper (minS s : Int) : Int := s - minS + 1

/-- Upper-bound decoding `val + MIN_SCORE - 1` (Solver.cpp lines 73
and 81). -/
def decodeUpper (minS v : Int) : Int := v + minS - 1

/-!
## The column exploration order

`Solver::Solver()` (Solver.cpp lines 175-178) fills
`columnOrder[i] = WIDTH / 2 + (1 - 2 * (i % 2)) * (i + 1) / 2`
for `0 ≤ i < WIDTH`, all in C++ `int` arithmetic, where `*` and `/`
associate to the left.
-/

/-- The column exploration order computed by the `Solver` constructor. -/
def columnOrder (w : Nat) : List Int :=
  (List.range w).map fun i =>
    (w : Int).tdiv 2 + ((1 - 2 * (i : Int).tmod 2) * ((i : Int) + 1)).tdiv 2

/-!
## The opening book (`OpeningBook.hpp`)

The book's internal storage engine (`TranspositionTable`) is an external
collaborator; `loadBook` is therefore parameterised by an `engine`
standing for `initTranspositionTable` plus the raw reads of the key and
value arrays: given the key size, the log-size and the remaining file
bytes it either produces the loaded lookup function or fails
(`initTranspositionTable` returning null, or `ifs.fail()` while reading
the arrays).  The file is `none` when opening it failed, otherwise the
list of bytes read as C++ `char` values.
-/

/-- State of an `OpeningBook`: board size, maximum stored depth and the
optional lookup table (`T` null ↔ `none`). -/
structure OpeningBook where
  width : Int
  height : Int
  depth : Int
  table : Option (Nat → Int)

/-- Which header check of `OpeningBook::load` failed, mirroring the
specific error message printed on each early return (or `ok`). -/
inductive LoadResult where
  | ok
  | fileMissing
  | badWidth
  | badHeight
  | badDepth
  | badKeySize
  | badValueSize
  | badLogSize
  | badInit
deriving DecidableEq

/-- Embedding of `OpeningBook::load` (OpeningBook.hpp lines 98-168).
`depth` is set to `-1` up front and only restored on full success; each
header byte is validated in source order and any failure returns
immediately, reporting the violated field. -/
def loadBook (engine : Int → Int → List Int → Option (Nat → Int))
    (width height : Int) (file : Option (List Int)) :
    OpeningBook × LoadResult :=
  let failed : LoadResult → OpeningBook × LoadResult := fun e =>
    (⟨width, height, -1, none⟩, e)
  match file with
  | none => failed .fileMissing
  | some bytes =>
    match bytes with
    | [] => failed .badWidth
    | w :: bytes =>
      if w ≠ width then failed .badWidth else
      match bytes with
      | [] => failed .badHeight
      | h :: bytes =>
        if h ≠ height then failed .badHeight else
        match bytes with
        | [] => failed .badDepth
        | d :: bytes =>
          if d > width * height then failed .badDepth else
          match bytes with
          | [] => failed .badKeySize
          | kb :: bytes =>
            if kb > 8 then failed .badKeySize else
            match bytes with
            | [] => failed .badValueSize
            | vb :: bytes =>
              if vb ≠ 1 then failed .badValueSize else
              match bytes with
              | [] => failed .badLogSize
              | ls :: bytes =>
                if ls > 40 then failed .badLogSize else
                match engine kb ls bytes with
                | none => failed .badInit
                | some t => (⟨width, height, d, some t⟩, .ok)

/-- Embedding of `OpeningBook::get` (OpeningBook.hpp lines 193-197): a
query for a position with `nbMoves` moves played and compact key `key3`
misses when `nbMoves > depth`, and otherwise reads the table (0 when
the table is null). -/
def OpeningBook.get (b : OpeningBook) (nbMoves : Nat) (key3 : Nat) : Int :=
  if (nbMoves : Int) > b.depth then 0
  else match b.table with
    | some t => t key3
    | none => 0

/-!
## The game interface

Modelled from the spec: the `Position` class is an external collaborator
(spec §2) exposing a move count, a canonical key, an immediate-win test,
the non-losing-move enumeration and a pure play operation, and the score
of a position is the signed number of plies to a forced win or loss
(spec §1, §3).  A `Game` packages this interface.  `children P` lists
the positions reached by the possible non-losing moves of `P`, already
in the exploration order produced by the `MoveSorter` over the
`columnOrder` (spec §4.1 step 7); `legalMoves P` lists the legal moves
of `P` as `(column, resulting position)` pairs in the same manner
(`Position::possible()`, used only by `getBestMove`).  `score` is the
true game-theoretic score, and `minScore`/`maxScore` are the
`Position::MIN_SCORE`/`MAX_SCORE` constants bounding it.
-/

/-- The abstract game interface consumed by `Solver` (modelled from the
spec, see above). -/
structure Game where
  Pos : Type
  nbMoves : Pos → Nat
  canWinNext : Pos → Bool
  children : Pos → List Pos
  legalMoves : Pos → List (Nat × Pos)
  key : Pos → Nat
  score : Pos → Int
  W : Nat
  H : Nat
  minScore : Int
  maxScore : Int

/-- Number of cells of the board, as an integer. -/
def Game.cells (g : Game) : Int := (g.W * g.H : Nat)

/-- Modelled from the spec: the facts about positions, scores and the
score constants that the solver's correctness rests on.  Every law is a
property of the real game stated in the spec: the score convention
"positive = side-to-move wins, magnitude = moves-to-decision" (§3), the
theoretical score window from the move count (§4.1 steps 1-3), the
negamax recurrence over the non-losing moves (§4.1 steps 7-8 and the
glossary), the canonical key determining the position's value (§2), and
the immediate-win score returned by `solve` (§4.2). -/
structure GameOK (g : Game) : Prop where
  /-- A position never has more moves played than cells. -/
  nb_le : ∀ P, g.nbMoves P ≤ g.W * g.H
  /-- Playing one move increments the move count. -/
  child_nb : ∀ P C, C ∈ g.children P → g.nbMoves C = g.nbMoves P + 1
  /-- After a non-losing move the opponent cannot win at once. -/
  child_safe : ∀ P C, C ∈ g.children P → g.canWinNext C = false
  /-- With no non-losing move available (and no immediate win), the
  opponent wins next move: `-(W*H - nbMoves) / 2` (Solver.cpp line 47). -/
  score_lost : ∀ P, g.canWinNext P = false → g.children P = [] →
      g.score P = (-(g.cells - g.nbMoves P)).tdiv 2
  /-- Within two plies of a full board, no win can still happen. -/
  score_draw : ∀ P, g.canWinNext P = false → g.children P ≠ [] →
      g.cells - 2 ≤ (g.nbMoves P : Int) → g.score P = 0
  /-- The side to move cannot win immediately, bounding the score above
  by `(W*H - 1 - nbMoves) / 2` (Solver.cpp line 58). -/
  score_ub : ∀ P, g.canWinNext P = false → g.children P ≠ [] →
      g.score P ≤ (g.cells - 1 - g.nbMoves P).tdiv 2
  /-- A non-losing move exists, so the opponent cannot win on its next
  stone, bounding the score below by `-(W*H - 2 - nbMoves) / 2`
  (Solver.cpp line 52). -/
  score_lb : ∀ P, g.canWinNext P = false → g.children P ≠ [] →
      (-(g.cells - 2 - g.nbMoves P)).tdiv 2 ≤ g.score P
  /-- Negamax recurrence, one half: no child refutes the score. -/
  score_children_le : ∀ P C, g.canWinNext P = false → C ∈ g.children P →
      -g.score C ≤ g.score P
  /-- Negamax recurrence, other half: some non-losing move attains the
  score (losing moves can never do better). -/
  score_children_ex : ∀ P, g.canWinNext P = false → g.children P ≠ [] →
      ∃ C ∈ g.children P, g.score P = -g.score C
  /-- Scores stay within the `Position` score constants. -/
  score_min : ∀ P, g.minScore ≤ g.score P
  /-- Scores stay within the `Position` score constants. -/
  score_max : ∀ P, g.score P ≤ g.maxScore
  /-- The canonical key determines the game-theoretic value. -/
  key_score : ∀ P Q, g.key P = g.key Q → g.score P = g.score Q
  /-- An immediate win is the best outcome: winning on the next stone
  scores `(W*H + 1 - nbMoves) / 2` (Solver.cpp line 115). -/
  win_score : ∀ P, g.canWinNext P = true →
      g.score P = (g.cells + 1 - g.nbMoves P).tdiv 2
  /-- A winning stone needs an empty cell. -/
  win_nb : ∀ P, g.canWinNext P = true → g.nbMoves P < g.W * g.H
  /-- `MIN_SCORE` is within two of the worst first-ply bound. -/
  msc_lb : g.minScore - 2 ≤ (-(g.cells - 2)).tdiv 2
  /-- `MAX_SCORE` is within two of the best first-ply bound. -/
  msc_ub : (g.cells - 1).tdiv 2 ≤ g.maxScore + 2
  /-- The score constants are symmetric enough: `-MAX_SCORE ≥ MIN_SCORE - 1`. -/
  msc_sym : g.minScore + g.maxScore ≤ 1
  /-- The score range is non-empty. -/
  msc_le : g.minScore ≤ g.maxScore

/-!
## The transposition table

Modelled from the spec (§2, §6): an external store mapping a position
key to one stored byte, `0` meaning absent; `put` overwrites.  It is
threaded through the search explicitly.
-/

/-- The transposition-table state: the byte stored for each key
(`0` = absent). -/
def Table : Type := Nat → Int

/-- `TranspositionTable::put`: overwrite the byte stored for a key. -/
def tput (T : Table) (k : Nat) (v : Int) : Table :=
  fun k2 => if k2 = k then v else T k2

/-- Soundness of a transposition table for the game `g`: every nonzero
stored byte decodes (by the dual-range rule negamax uses when reading,
Solver.cpp lines 64-79) to a valid bound on the score of any position
with that key. -/
def TableSound (g : Game) (T : Table) : Prop :=
  ∀ P : g.Pos, T (g.key P) ≠ 0 →
    (g.maxScore - g.minScore + 1 < T (g.key P) →
      decodeLower g.minScore g.maxScore (T (g.key P)) ≤ g.score P) ∧
    (T (g.key P) ≤ g.maxScore - g.minScore + 1 →
      g.score P ≤ decodeUpper g.minScore (T (g.key P)))

/-- Soundness of an opening book for the game `g`: a nonzero byte
decodes (Solver.cpp line 81) to the exact score of the position
(spec §3: a book entry decodes to an exact score). -/
def BookSound (g : Game) (book : g.Pos → Int) : Prop :=
  ∀ P : g.Pos, book P ≠ 0 → decodeUpper g.minScore (book P) = g.score P

/-!
## `Solver::negamax` (Solver.cpp lines 41-111)

The recursion is embedded with an explicit fuel argument (the search
depth is bounded by the number of empty cells, which the correctness
theorem supplies); the `depth` budget of the source is a separate,
faithful argument.  The repeated source idiom
`if(alpha < m) { alpha = m; if(alpha >= beta) return alpha; }` is
captured by `raiseAlpha` (and dually `lowerBeta`), returning either the
early result or the updated window bound.
-/

/-- `if(alpha < m) { alpha = m; if(alpha >= beta) return alpha; }`:
`inl` is an early return, `inr` the updated `alpha`. -/
def raiseAlpha (alpha beta m : Int) : Sum Int Int :=
  if alpha < m then (if beta ≤ m then .inl m else .inr m) else .inr alpha

/-- `if(beta > m) { beta = m; if(alpha >= beta) return beta; }`:
`inl` is an early return, `inr` the updated `beta`. -/
def lowerBeta (alpha beta m : Int) : Sum Int Int :=
  if m < beta then (if m ≤ alpha then .inl m else .inr m) else .inr beta

/-- The move loop of `negamax` (Solver.cpp lines 94-110) over the child
positions in exploration order: each child is searched with the
negated, swapped window; a score reaching `beta` is stored as a lower
bound and returned at once; otherwise it may raise `alpha`, and after
the last child `alpha` is stored as an upper bound and returned.
`rec` is the recursive search at the remaining fuel. -/
def childLoop (g : Game) (rec : g.Pos → Int → Int → Int → Table → Int × Table)
    (k : Nat) :
    List g.Pos → Int → Int → Int → Table → Int × Table
  | [], alpha, _beta, _depth, T =>
      (alpha, tput T k (encodeUpper g.minScore alpha))
  | C :: cs, alpha, beta, depth, T =>
      let r := rec C (-beta) (-alpha) depth T
      let s := -r.1
      if beta ≤ s then
        (s, tput r.2 k (encodeLower g.minScore g.maxScore s))
      else
        childLoop g rec k cs (if alpha < s then s else alpha) beta depth r.2

/-- The tail of `negamax` after the window adjustments (Solver.cpp
lines 81-110): opening-book probe, depth-budget handling and the move
loop. -/
def negamaxAfterTT (g : Game) (book : g.Pos → Int)
    (rec : g.Pos → Int → Int → Int → Table → Int × Table)
    (P : g.Pos) (alpha beta depth : Int) (T : Table) : Int × Table :=
  let bval := book P
  if bval ≠ 0 then (decodeUpper g.minScore bval, T)
  else if depth = 0 then (0, T)
  else
    childLoop g rec (g.key P) (g.children P) alpha beta
      (if 0 < depth then depth - 1 else depth) T

/-- The body of `Solver::negamax` (Solver.cpp lines 41-111): forced
loss when no non-losing move remains (line 47), draw near a full board
(line 50), window tightening from the theoretical bounds (lines 52-62),
transposition-table probe and tightening (lines 64-79), then the tail. -/
def negamaxBody (g : Game) (book : g.Pos → Int)
    (rec : g.Pos → Int → Int → Int → Table → Int × Table)
    (P : g.Pos) (alpha beta depth : Int) (T : Table) : Int × Table :=
  let n : Int := g.nbMoves P
  if (g.children P).isEmpty then ((-(g.cells - n)).tdiv 2, T)
  else if g.cells - 2 ≤ n then (0, T)
  else
    match raiseAlpha alpha beta ((-(g.cells - 2 - n)).tdiv 2) with
    | .inl v => (v, T)
    | .inr alpha1 =>
      match lowerBeta alpha1 beta ((g.cells - 1 - n).tdiv 2) with
      | .inl v => (v, T)
      | .inr beta1 =>
        let val := T (g.key P)
        if val = 0 then negamaxAfterTT g book rec P alpha1 beta1 depth T
        else if g.maxScore - g.minScore + 1 < val then
          match raiseAlpha alpha1 beta1 (decodeLower g.minScore g.maxScore val) with
          | .inl v => (v, T)
          | .inr alpha2 => negamaxAfterTT g book rec P alpha2 beta1 depth T
        else
          match lowerBeta alpha1 beta1 (decodeUpper g.minScore val) with
          | .inl v => (v, T)
          | .inr beta2 => negamaxAfterTT g book rec P alpha1 beta2 depth T

/-- `Solver::negamax`, fuelled: fuel `0` is never reached when the fuel
exceeds the number of empty cells. -/
def negamax (g : Game) (book : g.Pos → Int) :
    Nat → g.Pos → Int → Int → Int → Table → Int × Table
  | 0, _, _, _, _, T => (0, T)
  | fuel + 1, P, alpha, beta, depth, T =>
      negamaxBody g book
        (fun C a b d T2 => negamax g book fuel C a b d T2) P alpha beta depth T

/-!
## `Solver::solve` (Solver.cpp lines 113-132)
-/

/-- The midpoint selection of `solve` (Solver.cpp lines 124-126):
naive midpoint, snapped toward the zero-centred half. -/
def solveMed (mn mx : Int) : Int :=
  let med := mn + (mx - mn).tdiv 2
  if med ≤ 0 ∧ mn.tdiv 2 < med then mn.tdiv 2
  else if 0 ≤ med ∧ med < mx.tdiv 2 then mx.tdiv 2
  else med

/-- The binary-search loop of `solve` (Solver.cpp lines 123-130),
fuelled, returning the final `(min, max)` pair together with the final
table (the source returns `min`). -/
def solveLoop (g : Game) (book : g.Pos → Int) (fuel : Nat) (P : g.Pos)
    (depth : Int) : Nat → Int → Int → Table → Int × Int × Table
  | 0, mn, mx, T => (mn, mx, T)
  | lf + 1, mn, mx, T =>
    if mn < mx then
      let med := solveMed mn mx
      let r := negamax g book fuel P med (med + 1) depth T
      if r.1 ≤ med then solveLoop g book fuel P depth lf mn r.1 r.2
      else solveLoop g book fuel P depth lf r.1 mx r.2
    else (mn, mx, T)

/-- `Solver::solve` (Solver.cpp lines 113-132): an immediate win is
scored directly (line 115); otherwise binary search over the full
theoretical range, or over `[-1, 1]` when `weak`, using null-window
`negamax` probes.  The loop fuel `(mx - mn).toNat + 1` covers every
iteration the strictly shrinking interval can need. -/
def solve (g : Game) (book : g.Pos → Int) (fuel : Nat) (P : g.Pos)
    (depth : Int) (weak : Bool) (T : Table) : Int × Table :=
  if g.canWinNext P then ((g.cells + 1 - g.nbMoves P).tdiv 2, T)
  else
    let mn0 := (-(g.cells - g.nbMoves P)).tdiv 2
    let mx0 := (g.cells + 1 - g.nbMoves P).tdiv 2
    let mn := if weak then -1 else mn0
    let mx := if weak then 1 else mx0
    let r := solveLoop g book fuel P depth ((mx - mn).toNat + 1) mn mx T
    (r.1, r.2.2)

/-!
## `Solver::getBestMove` (Solver.cpp lines 143-172)

The `MoveChooser` helper is external; modelled from the spec (§4.3): an
arg-max over the recorded `(move, score)` pairs, any single
maximal-score move being acceptable (here the first one recorded).
-/

/-- Arg-max step over scored columns, keeping the earlier entry on
ties (`MoveChooser`, modelled from the spec §4.3). -/
def chooseStep (best : (Int × Int) × Table) (r : (Int × Int) × Table) :
    (Int × Int) × Table :=
  if best.1.2 < r.1.2 then r else (best.1, r.2)

/-- `Solver::getBestMove` (Solver.cpp lines 143-172): `-1` when no
legal move exists (lines 145-147); otherwise each legal move is
applied, the resulting position fully solved, the score negated and
the best column returned. -/
def getBestMove (g : Game) (book : g.Pos → Int) (fuel : Nat) (P : g.Pos)
    (depth : Int) (weak : Bool) (T : Table) : Int :=
  match g.legalMoves P with
  | [] => -1
  | m :: ms =>
    let r0 := solve g book fuel m.2 depth weak T
    let init : (Int × Int) × Table := (((m.1 : Int), -r0.1), r0.2)
    (ms.foldl (fun acc m2 =>
      let r := solve g book fuel m2.2 depth weak acc.2
      chooseStep acc (((m2.1 : Int), -r.1), r.2)) init).1.1

/-!
## Correctness of `negamax`

`NMpost` is the contract documented on `Solver::negamax` (Solver.cpp
lines 36-39): the returned value is between the true score and the
window bound on a fail-low or fail-high, and exact inside the window.
-/

/-- The negamax return contract for position `P`, window
`(alpha, beta)` and returned value `v`. -/
def NMpost (g : Game) (P : g.Pos) (alpha beta v : Int) : Prop :=
  (g.score P ≤ alpha → g.score P ≤ v ∧ v ≤ alpha) ∧
  (beta ≤ g.score P → beta ≤ v ∧ v ≤ g.score P) ∧
  (alpha < g.score P → g.score P < beta → v = g.score P)

theorem NMpost_exact (g : Game) (P : g.Pos) (alpha beta v : Int)
    (h : v = g.score P) : NMpost g P alpha beta v := by
  unfold NMpost; omega

theorem NMpost_of_lb (g : Game) (P : g.Pos) (alpha beta m : Int)
    (hm : m ≤ g.score P) (hab : alpha < beta) (hbm : beta ≤ m) :
    NMpost g P alpha beta m := by
  unfold NMpost; omega

theorem NMpost_of_ub (g : Game) (P : g.Pos) (alpha beta m : Int)
    (hm : g.score P ≤ m) (hab : alpha < beta) (hma : m ≤ alpha) :
    NMpost g P alpha beta m := by
  unfold NMpost; omega

/-- A contract for a raised `alpha` transfers to the original window
when the raising bound is below the true score. -/
theorem NMpost_raise (g : Game) (P : g.Pos) (alpha alpha2 beta v : Int)
    (ha : alpha ≤ alpha2) (hs : alpha < alpha2 → alpha2 ≤ g.score P)
    (hp : NMpost g P alpha2 beta v) : NMpost g P alpha beta v := by
  unfold NMpost at *; omega

/-- A contract for a lowered `beta` transfers to the original window
when the lowering bound is above the true score. -/
theorem NMpost_lower (g : Game) (P : g.Pos) (alpha beta beta2 v : Int)
    (hb : beta2 ≤ beta) (hs : beta2 < beta → g.score P ≤ beta2)
    (hp : NMpost g P alpha beta2 v) : NMpost g P alpha beta v := by
  unfold NMpost at *; omega

theorem raiseAlpha_inl {alpha beta m v : Int}
    (h : raiseAlpha alpha beta m = .inl v) :
    v = m ∧ alpha < m ∧ beta ≤ m := by
  unfold raiseAlpha at h
  split_ifs at h with h1 h2 <;> simp_all

theorem raiseAlpha_inr {alpha beta m a2 : Int} (hab : alpha < beta)
    (h : raiseAlpha alpha beta m = .inr a2) :
    alpha ≤ a2 ∧ m ≤ a2 ∧ a2 < beta ∧ (alpha < a2 → a2 = m) := by
  unfold raiseAlpha at h
  split_ifs at h with h1 h2 <;> simp_all <;> omega

theorem lowerBeta_inl {alpha beta m v : Int}
    (h : lowerBeta alpha beta m = .inl v) :
    v = m ∧ m < beta ∧ m ≤ alpha := by
  unfold lowerBeta at h
  split_ifs at h with h1 h2 <;> simp_all

theorem lowerBeta_inr {alpha beta m b2 : Int} (hab : alpha < beta)
    (h : lowerBeta alpha beta m = .inr b2) :
    b2 ≤ beta ∧ b2 ≤ m ∧ alpha < b2 ∧ (b2 < beta → b2 = m) := by
  unfold lowerBeta at h
  split_ifs at h with h1 h2 <;> simp_all <;> omega

/-- Correctness of the move loop: assuming the recursive search obeys
its contract on the children of `P`, the loop preserves table soundness
and establishes the negamax contract, provided the best move is still
ahead in the remaining list (or the score is already known to fail
low). -/
theorem childLoop_sound (g : Game) (hg : GameOK g) (P : g.Pos)
    (rec : g.Pos → Int → Int → Int → Table → Int × Table)
    (hrec : ∀ C a b d T2, C ∈ g.children P → g.canWinNext C = false →
        a < b → d < 0 → TableSound g T2 →
        TableSound g (rec C a b d T2).2 ∧ NMpost g C a b (rec C a b d T2).1)
    (hcw : g.canWinNext P = false) :
    ∀ (cs : List g.Pos) (alpha beta depth : Int) (T : Table),
      (∀ C ∈ cs, C ∈ g.children P) →
      (g.score P ≤ alpha ∨ ∃ C ∈ cs, g.score P = -g.score C) →
      alpha < beta → depth < 0 → TableSound g T →
      beta ≤ g.maxScore + 2 → g.minScore - 1 ≤ beta →
      TableSound g (childLoop g rec (g.key P) cs alpha beta depth T).2 ∧
      NMpost g P alpha beta (childLoop g rec (g.key P) cs alpha beta depth T).1 := by
  intro cs
  induction cs with
  | nil =>
    intro alpha beta depth T _ hrem hab hd hT hbu hbl
    have hsa : g.score P ≤ alpha := by
      rcases hrem with h | ⟨C, hC, _⟩
      · exact h
      · exact absurd hC (List.not_mem_nil C)
    constructor
    · intro Q hQ
      by_cases hkey : g.key Q = g.key P
      · have hval : (childLoop g rec (g.key P) [] alpha beta depth T).2 (g.key Q)
            = encodeUpper g.minScore alpha := by
          simp [childLoop, tput, hkey]
        have hqs : g.score Q = g.score P := hg.key_score Q P hkey
        have h1 := hg.score_min Q
        have h2 := hg.score_max Q
        rw [hval] at hQ ⊢
        unfold encodeUpper decodeLower decodeUpper
        unfold encodeUpper at hQ
        omega
      · have hval : (childLoop g rec (g.key P) [] alpha beta depth T).2 (g.key Q)
            = T (g.key Q) := by
          simp [childLoop, tput, hkey]
        rw [hval] at hQ ⊢
        exact hT Q hQ
    · have hv : (childLoop g rec (g.key P) [] alpha beta depth T).1 = alpha := rfl
      rw [hv]
      unfold NMpost
      omega
  | cons C cs IH =>
    intro alpha beta depth T hall hrem hab hd hT hbu hbl
    have hCmem : C ∈ g.children P := hall C (List.mem_cons_self C cs)
    obtain ⟨hTr, hpostC⟩ :=
      hrec C (-beta) (-alpha) depth T hCmem (hg.child_safe P C hCmem)
        (by omega) hd hT
    obtain ⟨hc1, hc2, hc3⟩ := hpostC
    have hle : -g.score C ≤ g.score P := hg.score_children_le P C hcw hCmem
    set r := rec C (-beta) (-alpha) depth T with hr
    by_cases hfh : beta ≤ -r.1
    · -- fail high: store a lower bound and return
      have hstep : childLoop g rec (g.key P) (C :: cs) alpha beta depth T
          = (-r.1, tput r.2 (g.key P) (encodeLower g.minScore g.maxScore (-r.1))) := by
        simp only [childLoop]
        rw [if_pos hfh]
      rw [hstep]
      have hs'le : -r.1 ≤ g.score P := by omega
      constructor
      · intro Q hQ
        dsimp only at hQ ⊢
        by_cases hkey : g.key Q = g.key P
        · have hval : tput r.2 (g.key P) (encodeLower g.minScore g.maxScore (-r.1)) (g.key Q)
              = encodeLower g.minScore g.maxScore (-r.1) := by
            simp [tput, hkey]
          have hqs : g.score Q = g.score P := hg.key_score Q P hkey
          have h1 := hg.score_min Q
          have h2 := hg.score_max Q
          rw [hval] at hQ ⊢
          unfold encodeLower decodeLower decodeUpper
          unfold encodeLower at hQ
          omega
        · have hval : tput r.2 (g.key P) (encodeLower g.minScore g.maxScore (-r.1)) (g.key Q)
              = r.2 (g.key Q) := by
            simp [tput, hkey]
          rw [hval] at hQ ⊢
          exact hTr Q hQ
      · dsimp only
        unfold NMpost
        omega
    · -- no cutoff: maybe raise alpha and continue with the tail
      have hstep : childLoop g rec (g.key P) (C :: cs) alpha beta depth T
          = childLoop g rec (g.key P) cs (if alpha < -r.1 then -r.1 else alpha)
              beta depth r.2 := by
        simp only [childLoop]
        rw [if_neg hfh]
      rw [hstep]
      set alpha2 := if alpha < -r.1 then -r.1 else alpha with halpha2
      have ha2 : alpha ≤ alpha2 := by rw [halpha2]; split <;> omega
      have ha2b : alpha2 < beta := by rw [halpha2]; split <;> omega
      have ha2s : alpha < alpha2 → alpha2 ≤ g.score P := by
        intro hlt
        have : alpha2 = -r.1 := by rw [halpha2] at hlt ⊢; split <;> omega
        omega
      have hrem2 : g.score P ≤ alpha2 ∨ ∃ C2 ∈ cs, g.score P = -g.score C2 := by
        rcases hrem with h | ⟨C0, hC0, hC0eq⟩
        · exact Or.inl (by omega)
        · rcases List.mem_cons.mp hC0 with rfl | hC0cs
          · left
            rw [halpha2]
            split <;> omega
          · exact Or.inr ⟨C0, hC0cs, hC0eq⟩
      obtain ⟨hTfin, hpostFin⟩ :=
        IH alpha2 beta depth r.2 (fun C2 hC2 => hall C2 (List.mem_cons_of_mem C hC2))
          hrem2 ha2b hd hTr hbu hbl
      exact ⟨hTfin, NMpost_raise g P alpha alpha2 beta _ ha2 ha2s hpostFin⟩

/-- Correctness of the tail of `negamax` (book probe, depth budget and
move loop) under an unlimited depth budget. -/
theorem negamaxAfterTT_sound (g : Game) (hg : GameOK g) (book : g.Pos → Int)
    (hb : BookSound g book) (P : g.Pos)
    (rec : g.Pos → Int → Int → Int → Table → Int × Table)
    (hrec : ∀ C a b d T2, C ∈ g.children P → g.canWinNext C = false →
        a < b → d < 0 → TableSound g T2 →
        TableSound g (rec C a b d T2).2 ∧ NMpost g C a b (rec C a b d T2).1)
    (alpha beta depth : Int) (T : Table)
    (hcw : g.canWinNext P = false) (hne : g.children P ≠ [])
    (hab : alpha < beta) (hd : depth < 0) (hT : TableSound g T)
    (hbu : beta ≤ g.maxScore + 2) (hbl : g.minScore - 1 ≤ beta) :
    TableSound g (negamaxAfterTT g book rec P alpha beta depth T).2 ∧
    NMpost g P alpha beta (negamaxAfterTT g book rec P alpha beta depth T).1 := by
  unfold negamaxAfterTT
  by_cases hbook : book P ≠ 0
  · rw [if_pos hbook]
    exact ⟨hT, NMpost_exact g P alpha beta _ (hb P hbook)⟩
  · rw [if_neg hbook, if_neg (by omega : ¬depth = 0),
      if_neg (by omega : ¬0 < depth)]
    exact childLoop_sound g hg P rec hrec hcw (g.children P) alpha beta depth T
      (fun C h => h)
      (Or.inr (hg.score_children_ex P hcw hne))
      hab hd hT hbu hbl

/-- Correctness of one unfolding of the `negamax` body: forced-loss and
draw leaves return the exact score, the window tightenings are justified
by the theoretical bounds and the (sound) transposition table, and the
move loop finishes the job. -/
theorem negamaxBody_sound (g : Game) (hg : GameOK g) (book : g.Pos → Int)
    (hb : BookSound g book) (P : g.Pos)
    (rec : g.Pos → Int → Int → Int → Table → Int × Table)
    (hrec : ∀ C a b d T2, C ∈ g.children P → g.canWinNext C = false →
        a < b → d < 0 → TableSound g T2 →
        TableSound g (rec C a b d T2).2 ∧ NMpost g C a b (rec C a b d T2).1)
    (alpha beta depth : Int) (T : Table)
    (hcw : g.canWinNext P = false) (hab : alpha < beta) (hd : depth < 0)
    (hT : TableSound g T) :
    TableSound g (negamaxBody g book rec P alpha beta depth T).2 ∧
    NMpost g P alpha beta (negamaxBody g book rec P alpha beta depth T).1 := by
  have hn0 : (0 : Int) ≤ (g.nbMoves P : Int) := Int.ofNat_nonneg _
  unfold negamaxBody
  by_cases hEmp : (g.children P).isEmpty
  · rw [if_pos hEmp]
    exact ⟨hT, NMpost_exact g P alpha beta _
      (hg.score_lost P hcw (List.isEmpty_iff.mp hEmp)).symm⟩
  · rw [if_neg hEmp]
    have hne : g.children P ≠ [] := fun h => hEmp (by simp [h])
    by_cases hDraw : g.cells - 2 ≤ (g.nbMoves P : Int)
    · rw [if_pos hDraw]
      exact ⟨hT, NMpost_exact g P alpha beta _
        (hg.score_draw P hcw hne hDraw).symm⟩
    · rw [if_neg hDraw]
      set n : Int := (g.nbMoves P : Int) with hn
      set min0 : Int := (-(g.cells - 2 - n)).tdiv 2 with hmin0def
      set max0 : Int := (g.cells - 1 - n).tdiv 2 with hmax0def
      have hmin0 : min0 ≤ g.score P := hg.score_lb P hcw hne
      have hmax0 : g.score P ≤ max0 := hg.score_ub P hcw hne
      have hminT : g.minScore - 2 ≤ min0 := by
        have h := tdiv2_mono (show -(g.cells - 2) ≤ -(g.cells - 2 - n) by omega)
        have h2 := hg.msc_lb
        omega
      have hmaxT : max0 ≤ g.maxScore + 2 := by
        have h := tdiv2_mono (show g.cells - 1 - n ≤ g.cells - 1 by omega)
        have h2 := hg.msc_ub
        omega
      rcases hra : raiseAlpha alpha beta min0 with v | alpha1
      · dsimp only
        obtain ⟨rfl, _, hbm⟩ := raiseAlpha_inl hra
        exact ⟨hT, NMpost_of_lb g P alpha beta min0 hmin0 hab hbm⟩
      · dsimp only
        obtain ⟨ha1, hm1, ha1b, ha1eq⟩ := raiseAlpha_inr hab hra
        have finishA : ∀ v, NMpost g P alpha1 beta v → NMpost g P alpha beta v := by
          intro v h
          refine NMpost_raise g P alpha alpha1 beta v ha1 (fun hlt => ?_) h
          rw [ha1eq hlt]; exact hmin0
        rcases hlb : lowerBeta alpha1 beta max0 with v | beta1
        · dsimp only
          obtain ⟨rfl, _, hma⟩ := lowerBeta_inl hlb
          exact ⟨hT, finishA max0 (NMpost_of_ub g P alpha1 beta max0 hmax0 ha1b hma)⟩
        · dsimp only
          obtain ⟨hb1, hbm1, ha1b1, hb1eq⟩ := lowerBeta_inr ha1b hlb
          have finishB : ∀ v, NMpost g P alpha1 beta1 v → NMpost g P alpha beta v := by
            intro v h
            refine finishA v (NMpost_lower g P alpha1 beta beta1 v hb1 (fun hlt => ?_) h)
            rw [hb1eq hlt]; exact hmax0
          have hbu1 : beta1 ≤ g.maxScore + 2 := by omega
          have hbl1 : g.minScore - 1 ≤ beta1 := by omega
          by_cases hv0 : T (g.key P) = 0
          · rw [if_pos hv0]
            obtain ⟨hTfin, hfin⟩ := negamaxAfterTT_sound g hg book hb P rec hrec
              alpha1 beta1 depth T hcw hne ha1b1 hd hT hbu1 hbl1
            exact ⟨hTfin, finishB _ hfin⟩
          · rw [if_neg hv0]
            have hTP := hT P hv0
            by_cases hvb : g.maxScore - g.minScore + 1 < T (g.key P)
            · rw [if_pos hvb]
              have hmin1 : decodeLower g.minScore g.maxScore (T (g.key P)) ≤ g.score P :=
                hTP.1 hvb
              rcases hra2 : raiseAlpha alpha1 beta1
                  (decodeLower g.minScore g.maxScore (T (g.key P))) with v | alpha2
              · dsimp only
                obtain ⟨rfl, _, hbm2⟩ := raiseAlpha_inl hra2
                exact ⟨hT, finishB _ (NMpost_of_lb g P alpha1 beta1 _ hmin1 ha1b1 hbm2)⟩
              · dsimp only
                obtain ⟨ha2, hm2, ha2b, ha2eq⟩ := raiseAlpha_inr ha1b1 hra2
                obtain ⟨hTfin, hfin⟩ := negamaxAfterTT_sound g hg book hb P rec hrec
                  alpha2 beta1 depth T hcw hne ha2b hd hT hbu1 hbl1
                refine ⟨hTfin, finishB _ ?_⟩
                refine NMpost_raise g P alpha1 alpha2 beta1 _ ha2 (fun hlt => ?_) hfin
                rw [ha2eq hlt]; exact hmin1
            · rw [if_neg hvb]
              have hmax1 : g.score P ≤ decodeUpper g.minScore (T (g.key P)) :=
                hTP.2 (by omega)
              rcases hlb2 : lowerBeta alpha1 beta1
                  (decodeUpper g.minScore (T (g.key P))) with v | beta2
              · dsimp only
                obtain ⟨rfl, _, hma2⟩ := lowerBeta_inl hlb2
                exact ⟨hT, finishB _ (NMpost_of_ub g P alpha1 beta1 _ hmax1 ha1b1 hma2)⟩
              · dsimp only
                obtain ⟨hb2, hbm2, ha1b2, hb2eq⟩ := lowerBeta_inr ha1b1 hlb2
                have hbu2 : beta2 ≤ g.maxScore + 2 := by omega
                have hbl2 : g.minScore - 1 ≤ beta2 := by omega
                obtain ⟨hTfin, hfin⟩ := negamaxAfterTT_sound g hg book hb P rec hrec
                  alpha1 beta2 depth T hcw hne ha1b2 hd hT hbu2 hbl2
                refine ⟨hTfin, finishB _ ?_⟩
                refine NMpost_lower g P alpha1 beta1 beta2 _ hb2 (fun hlt => ?_) hfin
                rw [hb2eq hlt]; exact hmax1

/-- Soundness of the fuelled `negamax`: with enough fuel (more than the
number of empty cells), a sound table and book, a valid window, an
unlimited depth budget and the caller-checked precondition, the search
returns a sound table and a value obeying the negamax contract. -/
theorem negamax_sound (g : Game) (hg : GameOK g) (book : g.Pos → Int)
    (hb : BookSound g book) :
    ∀ (fuel : Nat) (P : g.Pos) (alpha beta depth : Int) (T : Table),
      g.canWinNext P = false → alpha < beta → depth < 0 → TableSound g T →
      g.W * g.H < fuel + g.nbMoves P →
      TableSound g (negamax g book fuel P alpha beta depth T).2 ∧
      NMpost g P alpha beta (negamax g book fuel P alpha beta depth T).1 := by
  intro fuel
  induction fuel with
  | zero =>
    intro P _ _ _ _ _ _ _ _ hfuel
    exact absurd hfuel (by have := hg.nb_le P; omega)
  | succ fuel IH =>
    intro P alpha beta depth T hcw hab hd hT hfuel
    have hstep : negamax g book (fuel + 1) P alpha beta depth T
        = negamaxBody g book (fun C a b d T2 => negamax g book fuel C a b d T2)
            P alpha beta depth T := rfl
    rw [hstep]
    refine negamaxBody_sound g hg book hb P _ ?_ alpha beta depth T hcw hab hd hT
    intro C a b d T2 hmem hcwC habC hdC hT2
    exact IH C a b d T2 hcwC habC hdC hT2
      (by have := hg.child_nb P C hmem; omega)

/-!
## The binary search of `solve`
-/

/-- The snapped midpoint makes strict progress: it stays inside
`[min, max)` whenever the interval is non-trivial. -/
theorem solveMed_bounds {mn mx : Int} (h : mn < mx) :
    mn ≤ solveMed mn mx ∧ solveMed mn mx < mx := by
  unfold solveMed
  dsimp only
  have h1 := tdiv2_facts (mx - mn)
  have h2 := tdiv2_facts mn
  have h3 := tdiv2_facts mx
  split_ifs <;> omega

/-- When the loop starts with an already-closed interval (or no fuel),
nothing happens. -/
theorem solveLoop_stop (g : Game) (book : g.Pos → Int) (fuel : Nat)
    (P : g.Pos) (depth : Int) (lf : Nat) (mn mx : Int) (T : Table)
    (h : ¬mn < mx) :
    solveLoop g book fuel P depth lf mn mx T = (mn, mx, T) := by
  cases lf with
  | zero => rfl
  | succ lf => simp [solveLoop, h]

/-- With fuel exceeding the width of the interval, the loop always
reaches a state where the interval is closed: `min ≥ max` on exit. -/
theorem solveLoop_exits (g : Game) (book : g.Pos → Int) (fuel : Nat)
    (P : g.Pos) (depth : Int) :
    ∀ (lf : Nat) (mn mx : Int) (T : Table), (mx - mn).toNat < lf →
      ¬((solveLoop g book fuel P depth lf mn mx T).1 <
        (solveLoop g book fuel P depth lf mn mx T).2.1) := by
  intro lf
  induction lf with
  | zero => intro mn mx T h; omega
  | succ lf IH =>
    intro mn mx T h
    by_cases hlt : mn < mx
    · have hmed := solveMed_bounds hlt
      set med := solveMed mn mx with hmeddef
      have hstep : solveLoop g book fuel P depth (lf + 1) mn mx T
          = (let r := negamax g book fuel P med (med + 1) depth T;
             if r.1 ≤ med then solveLoop g book fuel P depth lf mn r.1 r.2
             else solveLoop g book fuel P depth lf r.1 mx r.2) := by
        simp [solveLoop, hlt]
      rw [hstep]
      set r := negamax g book fuel P med (med + 1) depth T with hrdef
      by_cases hr : r.1 ≤ med
      · rw [if_pos hr]
        exact IH mn r.1 r.2 (by omega)
      · rw [if_neg hr]
        exact IH r.1 mx r.2 (by omega)
    · rw [solveLoop_stop g book fuel P depth (lf+1) mn mx T hlt]
      exact hlt

/-- When the true score lies inside `[min, max]`, the loop pins it down
exactly: it exits with `min = max = score` and a sound table. -/
theorem solveLoop_exact (g : Game) (hg : GameOK g) (book : g.Pos → Int)
    (hb : BookSound g book) (fuel : Nat) (P : g.Pos) (depth : Int)
    (hcw : g.canWinNext P = false) (hd : depth < 0)
    (hfuel : g.W * g.H < fuel + g.nbMoves P) :
    ∀ (lf : Nat) (mn mx : Int) (T : Table), (mx - mn).toNat < lf →
      mn ≤ g.score P → g.score P ≤ mx → TableSound g T →
      (solveLoop g book fuel P depth lf mn mx T).1 = g.score P ∧
      (solveLoop g book fuel P depth lf mn mx T).2.1 = g.score P ∧
      TableSound g (solveLoop g book fuel P depth lf mn mx T).2.2 := by
  intro lf
  induction lf with
  | zero => intro mn mx T h hs1 hs2 _; omega
  | succ lf IH =>
    intro mn mx T h hs1 hs2 hT
    by_cases hlt : mn < mx
    · have hmed := solveMed_bounds hlt
      set med := solveMed mn mx with hmeddef
      have hstep : solveLoop g book fuel P depth (lf + 1) mn mx T
          = (let r := negamax g book fuel P med (med + 1) depth T;
             if r.1 ≤ med then solveLoop g book fuel P depth lf mn r.1 r.2
             else solveLoop g book fuel P depth lf r.1 mx r.2) := by
        simp [solveLoop, hlt]
      rw [hstep]
      obtain ⟨hTr, hc1, hc2, hc3⟩ :=
        negamax_sound g hg book hb fuel P med (med + 1) depth T hcw
          (by omega) hd hT hfuel
      set r := negamax g book fuel P med (med + 1) depth T with hrdef
      by_cases hcase : g.score P ≤ med
      · have hr : r.1 ≤ med ∧ g.score P ≤ r.1 := by
          have := hc1 hcase
          omega
        rw [if_pos hr.1]
        exact IH mn r.1 r.2 (by omega) hs1 hr.2 hTr
      · have hr : ¬r.1 ≤ med ∧ r.1 ≤ g.score P := by
          have := hc2 (by omega)
          omega
        rw [if_neg hr.1]
        exact IH r.1 mx r.2 (by omega) hr.2 hs2 hTr
    · rw [solveLoop_stop g book fuel P depth (lf+1) mn mx T hlt]
      dsimp only
      exact ⟨by omega, by omega, hT⟩

/-- When the true score is at or below `min`, the loop returns `min`
unchanged (weak mode on a lost position). -/
theorem solveLoop_low (g : Game) (hg : GameOK g) (book : g.Pos → Int)
    (hb : BookSound g book) (fuel : Nat) (P : g.Pos) (depth : Int)
    (hcw : g.canWinNext P = false) (hd : depth < 0)
    (hfuel : g.W * g.H < fuel + g.nbMoves P) :
    ∀ (lf : Nat) (mn mx : Int) (T : Table), (mx - mn).toNat < lf →
      g.score P ≤ mn → TableSound g T →
      (solveLoop g book fuel P depth lf mn mx T).1 = mn ∧
      TableSound g (solveLoop g book fuel P depth lf mn mx T).2.2 := by
  intro lf
  induction lf with
  | zero => intro mn mx T h; omega
  | succ lf IH =>
    intro mn mx T h hs hT
    by_cases hlt : mn < mx
    · have hmed := solveMed_bounds hlt
      set med := solveMed mn mx with hmeddef
      have hstep : solveLoop g book fuel P depth (lf + 1) mn mx T
          = (let r := negamax g book fuel P med (med + 1) depth T;
             if r.1 ≤ med then solveLoop g book fuel P depth lf mn r.1 r.2
             else solveLoop g book fuel P depth lf r.1 mx r.2) := by
        simp [solveLoop, hlt]
      rw [hstep]
      obtain ⟨hTr, hc1, hc2, hc3⟩ :=
        negamax_sound g hg book hb fuel P med (med + 1) depth T hcw
          (by omega) hd hT hfuel
      set r := negamax g book fuel P med (med + 1) depth T with hrdef
      have hr : r.1 ≤ med ∧ g.score P ≤ r.1 := by
        have := hc1 (by omega)
        omega
      rw [if_pos hr.1]
      exact IH mn r.1 r.2 (by omega) hs hTr
    · rw [solveLoop_stop g book fuel P depth (lf+1) mn mx T hlt]
      exact ⟨rfl, hT⟩

/-- When the true score is at or above `max`, the loop returns a value
between `max` and the true score (weak mode on a won position). -/
theorem solveLoop_high (g : Game) (hg : GameOK g) (book : g.Pos → Int)
    (hb : BookSound g book) (fuel : Nat) (P : g.Pos) (depth : Int)
    (hcw : g.canWinNext P = false) (hd : depth < 0)
    (hfuel : g.W * g.H < fuel + g.nbMoves P) :
    ∀ (lf : Nat) (mn mx : Int) (T : Table), (mx - mn).toNat < lf →
      mn < mx → mx ≤ g.score P → TableSound g T →
      mx ≤ (solveLoop g book fuel P depth lf mn mx T).1 ∧
      (solveLoop g book fuel P depth lf mn mx T).1 ≤ g.score P ∧
      TableSound g (solveLoop g book fuel P depth lf mn mx T).2.2 := by
  intro lf
  induction lf with
  | zero => intro mn mx T h; omega
  | succ lf IH =>
    intro mn mx T h hlt hs hT
    have hmed := solveMed_bounds hlt
    set med := solveMed mn mx with hmeddef
    have hstep : solveLoop g book fuel P depth (lf + 1) mn mx T
        = (let r := negamax g book fuel P med (med + 1) depth T;
           if r.1 ≤ med then solveLoop g book fuel P depth lf mn r.1 r.2
           else solveLoop g book fuel P depth lf r.1 mx r.2) := by
      simp [solveLoop, hlt]
    rw [hstep]
    obtain ⟨hTr, hc1, hc2, hc3⟩ :=
      negamax_sound g hg book hb fuel P med (med + 1) depth T hcw
        (by omega) hd hT hfuel
    set r := negamax g book fuel P med (med + 1) depth T with hrdef
    have hr : ¬r.1 ≤ med ∧ med + 1 ≤ r.1 ∧ r.1 ≤ g.score P := by
      have := hc2 (by omega)
      omega
    rw [if_neg hr.1]
    by_cases hr2 : r.1 < mx
    · exact IH r.1 mx r.2 (by omega) hr2 hs hTr
    · rw [solveLoop_stop g book fuel P depth lf r.1 mx r.2 (by omega)]
      exact ⟨by omega, by omega, hTr⟩

/-- The full theoretical range used by `solve` (Solver.cpp
lines 116-117) contains the true score of any position on which
`negamax` may be called. -/
theorem score_range (g : Game) (hg : GameOK g) (P : g.Pos)
    (hcw : g.canWinNext P = false) :
    (-(g.cells - g.nbMoves P)).tdiv 2 ≤ g.score P ∧
    g.score P ≤ (g.cells + 1 - g.nbMoves P).tdiv 2 := by
  have hnle : (g.nbMoves P : Int) ≤ g.cells := by
    unfold Game.cells; exact_mod_cast hg.nb_le P
  have hn0 : (0 : Int) ≤ (g.nbMoves P : Int) := Int.ofNat_nonneg _
  have hf1 := tdiv2_facts (-(g.cells - g.nbMoves P))
  have hf2 := tdiv2_facts (g.cells + 1 - g.nbMoves P)
  by_cases hne : g.children P = []
  · have hs := hg.score_lost P hcw hne
    omega
  · by_cases hDraw : g.cells - 2 ≤ (g.nbMoves P : Int)
    · have hs := hg.score_draw P hcw hne hDraw
      omega
    · have hlb := hg.score_lb P hcw hne
      have hub := hg.score_ub P hcw hne
      have hm1 := tdiv2_mono
        (show -(g.cells - g.nbMoves P) ≤ -(g.cells - 2 - g.nbMoves P) by omega)
      have hm2 := tdiv2_mono
        (show g.cells - 1 - (g.nbMoves P : Int) ≤ g.cells + 1 - g.nbMoves P by omega)
      omega

/-- With `weak = false`, `solve` returns the exact score and preserves
table soundness. -/
theorem solve_exact (g : Game) (hg : GameOK g) (book : g.Pos → Int)
    (hb : BookSound g book) (fuel : Nat) (P : g.Pos) (depth : Int)
    (T : Table) (hd : depth < 0) (hT : TableSound g T)
    (hfuel : g.W * g.H < fuel + g.nbMoves P) :
    (solve g book fuel P depth false T).1 = g.score P ∧
    TableSound g (solve g book fuel P depth false T).2 := by
  unfold solve
  by_cases hcw : g.canWinNext P
  · rw [if_pos hcw]
    exact ⟨(hg.win_score P hcw).symm, hT⟩
  · rw [if_neg hcw]
    dsimp only [Bool.false_eq_true, if_false]
    obtain ⟨hs1, hs2⟩ := score_range g hg P (by simpa using hcw)
    obtain ⟨h1, h2, h3⟩ := solveLoop_exact g hg book hb fuel P depth
      (by simpa using hcw) hd hfuel
      (((g.cells + 1 - g.nbMoves P).tdiv 2
          - (-(g.cells - g.nbMoves P)).tdiv 2).toNat + 1)
      ((-(g.cells - g.nbMoves P)).tdiv 2)
      ((g.cells + 1 - g.nbMoves P).tdiv 2) T (by omega) hs1 hs2 hT
    exact ⟨h1, h3⟩

/-- With `weak = true`, `solve` classifies the outcome: exactly `-1`
for a lost position, `0` for a draw, and for a won position a value
between `1` and the true score (not necessarily `1`). -/
theorem solve_weak_classifies (g : Game) (hg : GameOK g) (book : g.Pos → Int)
    (hb : BookSound g book) (fuel : Nat) (P : g.Pos) (depth : Int)
    (T : Table) (hd : depth < 0) (hT : TableSound g T)
    (hfuel : g.W * g.H < fuel + g.nbMoves P) :
    (g.score P ≤ -1 → (solve g book fuel P depth true T).1 = -1) ∧
    (g.score P = 0 → (solve g book fuel P depth true T).1 = 0) ∧
    (1 ≤ g.score P → 1 ≤ (solve g book fuel P depth true T).1 ∧
      (solve g book fuel P depth true T).1 ≤ g.score P) := by
  unfold solve
  by_cases hcw : g.canWinNext P
  · rw [if_pos hcw]
    have hs := hg.win_score P hcw
    have hn : g.nbMoves P < g.W * g.H := hg.win_nb P hcw
    have hge : 1 ≤ (g.cells + 1 - g.nbMoves P).tdiv 2 := by
      have hcells : (g.nbMoves P : Int) + 1 ≤ g.cells := by
        unfold Game.cells; exact_mod_cast hn
      have := tdiv2_facts (g.cells + 1 - g.nbMoves P)
      omega
    refine ⟨fun h => by omega, fun h => by omega, fun h => by constructor <;> omega⟩
  · rw [if_neg hcw]
    have hcw2 : g.canWinNext P = false := by simpa using hcw
    simp only [reduceIte]
    refine ⟨fun h => ?_, fun h => ?_, fun h => ?_⟩
    · exact (solveLoop_low g hg book hb fuel P depth hcw2 hd hfuel
        (((1 : Int) - (-1)).toNat + 1) (-1) 1 T (by omega) (by omega) hT).1
    · have := solveLoop_exact g hg book hb fuel P depth hcw2 hd hfuel
        (((1 : Int) - (-1)).toNat + 1) (-1) 1 T (by omega) (by omega) (by omega) hT
      omega
    · have := solveLoop_high g hg book hb fuel P depth hcw2 hd hfuel
        (((1 : Int) - (-1)).toNat + 1) (-1) 1 T (by omega) (by omega) (by omega) hT
      exact ⟨by omega, by omega⟩

/-!
## Concrete instances

Small concrete games used to exhibit witnesses and counterexamples.
They use the real board constants (`W = 7`, `H = 6`,
`MIN_SCORE = -18`, `MAX_SCORE = 18`).
-/

/-- A single drawn position with a full board (42 moves played): the
forced-loss formula degenerates to the draw score. -/
@[reducible] def fullBoard : Game where
  Pos := Unit
  nbMoves := fun _ => 42
  canWinNext := fun _ => false
  children := fun _ => []
  legalMoves := fun _ => []
  key := fun _ => 0
  score := fun _ => 0
  W := 7
  H := 6
  minScore := -18
  maxScore := 18

theorem fullBoard_ok : GameOK fullBoard := by
  constructor <;> decide

/-- A position (`0`, 36 moves played) whose only non-losing move leads
to a position (`1`) where the opponent has no non-losing reply: a
forced win in three plies, true score `2`. -/
@[reducible] def forcedWin : Game where
  Pos := Fin 2
  nbMoves := fun p => if p = 0 then 36 else 37
  canWinNext := fun _ => false
  children := fun p => if p = 0 then [1] else []
  legalMoves := fun _ => []
  key := fun p => p.val
  score := fun p => if p = 0 then 2 else -2
  W := 7
  H := 6
  minScore := -18
  maxScore := 18

theorem forcedWin_ok : GameOK forcedWin := by
  constructor <;> decide

/-- A position (10 moves played) where the side to move can complete a
win this turn: true score `(42 + 1 - 10) / 2 = 16`. -/
@[reducible] def directWin : Game where
  Pos := Unit
  nbMoves := fun _ => 10
  canWinNext := fun _ => true
  children := fun _ => []
  legalMoves := fun _ => []
  key := fun _ => 0
  score := fun _ => 16
  W := 7
  H := 6
  minScore := -18
  maxScore := 18

theorem directWin_ok : GameOK directWin := by
  constructor <;> decide

/-- The empty (all-absent) transposition table is sound for any game. -/
theorem tableSound_empty (g : Game) : TableSound g (fun _ => 0) :=
  fun _ h => absurd rfl h

/-- The empty opening book is sound for any game. -/
theorem bookSound_empty (g : Game) : BookSound g (fun _ => 0) :=
  fun _ h => absurd rfl h

/-!
## The claims
-/

/-- C1: for every position satisfying negamax's precondition (nobody
has won and the side to move cannot win on its next move), every window
`alpha < beta`, an unlimited depth budget (negative `depth`), and
caches whose entries are sound bounds for their keys, `negamax` returns
a value `v` with: true score `≤ alpha → v ≤ alpha`; true score
`≥ beta → v ≥ beta`; and `alpha <` true score `< beta → v` is exactly
the true score. -/
theorem claim1_negamax_contract (g : Game) (book : g.Pos → Int)
    (fuel : Nat) (P : g.Pos) (alpha beta depth : Int) (T : Table)
    (hg : GameOK g) (hb : BookSound g book) (hT : TableSound g T)
    (hcw : g.canWinNext P = false) (hab : alpha < beta) (hd : depth < 0)
    (hfuel : g.W * g.H < fuel + g.nbMoves P) :
    (g.score P ≤ alpha → (negamax g book fuel P alpha beta depth T).1 ≤ alpha) ∧
    (beta ≤ g.score P → beta ≤ (negamax g book fuel P alpha beta depth T).1) ∧
    (alpha < g.score P → g.score P < beta →
      (negamax g book fuel P alpha beta depth T).1 = g.score P) := by
  obtain ⟨-, h1, h2, h3⟩ :=
    negamax_sound g hg book hb fuel P alpha beta depth T hcw hab hd hT hfuel
  exact ⟨fun h => (h1 h).2, fun h => (h2 h).1, h3⟩

/-- Witness for C1 at a concrete game, window `(0, 1)`, depth `-1`,
empty caches. -/
theorem claim1_negamax_contract_witness :
    GameOK fullBoard ∧ BookSound fullBoard (fun _ => 0) ∧
    TableSound fullBoard (fun _ => 0) ∧
    fullBoard.canWinNext () = false ∧ ((0 : Int) < 1) ∧ ((-1 : Int) < 0) ∧
    fullBoard.W * fullBoard.H < 43 + fullBoard.nbMoves () ∧
    ((fullBoard.score () ≤ 0 →
        (negamax fullBoard (fun _ => 0) 43 () 0 1 (-1) (fun _ => 0)).1 ≤ 0) ∧
     (1 ≤ fullBoard.score () →
        1 ≤ (negamax fullBoard (fun _ => 0) 43 () 0 1 (-1) (fun _ => 0)).1) ∧
     (0 < fullBoard.score () → fullBoard.score () < 1 →
        (negamax fullBoard (fun _ => 0) 43 () 0 1 (-1) (fun _ => 0)).1
          = fullBoard.score ())) :=
  ⟨fullBoard_ok, bookSound_empty fullBoard, tableSound_empty fullBoard,
   rfl, by decide, by decide, by decide,
   claim1_negamax_contract fullBoard (fun _ => 0) 43 () 0 1 (-1) (fun _ => 0)
     fullBoard_ok (bookSound_empty fullBoard) (tableSound_empty fullBoard)
     rfl (by decide) (by decide) (by decide)⟩

/-- C2: for every score `MIN_SCORE ≤ s ≤ MAX_SCORE`, the lower-bound
encoding lands strictly above `MAX_SCORE - MIN_SCORE + 1` and decodes
back to `s`; the upper-bound encoding lands in
`[1, MAX_SCORE - MIN_SCORE + 1]` and decodes back to `s`; and the two
encoded ranges are disjoint from each other and from the absent
sentinel `0`. -/
theorem claim2_encoding_roundtrip (minS maxS s : Int) (hms : minS ≤ maxS)
    (h1 : minS ≤ s) (h2 : s ≤ maxS) :
    (maxS - minS + 1 < encodeLower minS maxS s ∧
     decodeLower minS maxS (encodeLower minS maxS s) = s) ∧
    (1 ≤ encodeUpper minS s ∧ encodeUpper minS s ≤ maxS - minS + 1 ∧
     decodeUpper minS (encodeUpper minS s) = s) ∧
    (∀ t : Int, minS ≤ t → t ≤ maxS →
      encodeLower minS maxS s ≠ encodeUpper minS t) ∧
    encodeLower minS maxS s ≠ 0 ∧ encodeUpper minS s ≠ 0 := by
  unfold encodeLower encodeUpper decodeLower decodeUpper
  refine ⟨⟨by omega, by omega⟩, ⟨by omega, by omega, by omega⟩,
    fun t ht1 ht2 => by omega, by omega, by omega⟩

/-- Witness for C2 at the real constants `MIN_SCORE = -18`,
`MAX_SCORE = 18` and score `5`. -/
theorem claim2_encoding_roundtrip_witness :
    ((-18 : Int) ≤ 18) ∧ ((-18 : Int) ≤ 5) ∧ ((5 : Int) ≤ 18) ∧
    ((18 - (-18) + 1 < encodeLower (-18) 18 5 ∧
      decodeLower (-18) 18 (encodeLower (-18) 18 5) = 5) ∧
     (1 ≤ encodeUpper (-18) 5 ∧ encodeUpper (-18) 5 ≤ 18 - (-18) + 1 ∧
      decodeUpper (-18) (encodeUpper (-18) 5) = 5) ∧
     (∀ t : Int, -18 ≤ t → t ≤ 18 →
       encodeLower (-18) 18 5 ≠ encodeUpper (-18) t) ∧
     encodeLower (-18) 18 5 ≠ 0 ∧ encodeUpper (-18) 5 ≠ 0) :=
  ⟨by decide, by decide, by decide,
   claim2_encoding_roundtrip (-18) 18 5 (by decide) (by decide) (by decide)⟩

/-- Counterexample for C3 as stated: with `weak = true` on a position
with a forced win (true score `2`), the binary-search loop exits with
`min = 2` and `max = 1`, so it does not exit with `min == max`. -/
theorem claim3_counterexample :
    (solveLoop forcedWin (fun _ => 0) 43 0 (-1) 3 (-1) 1 (fun _ => 0)).1 = 2 ∧
    (solveLoop forcedWin (fun _ => 0) 43 0 (-1) 3 (-1) 1 (fun _ => 0)).2.1 = 1 ∧
    (2 : Int) ≠ 1 := by
  refine ⟨by decide, by decide, by decide⟩

/-- C3 (amended): the snapped midpoint always makes strict progress
(`min ≤ med < max` whenever `min < max`), so the loop closes its
interval (`min ≥ max` on exit) within `max - min + 1` iterations for
both weak settings; and with `weak = false` — where the initial range
contains the true score — the loop exits at `min == max` and `solve`
returns the position's exact score.  (With `weak = true` the loop may
exit with `min > max`, see the counterexample.) -/
theorem claim3_binary_search_amended (g : Game) (book : g.Pos → Int)
    (fuel : Nat) (P : g.Pos) (depth : Int) (T : Table)
    (hg : GameOK g) (hb : BookSound g book) (hT : TableSound g T)
    (hd : depth < 0) (hfuel : g.W * g.H < fuel + g.nbMoves P) :
    (∀ mn mx : Int, mn < mx → mn ≤ solveMed mn mx ∧ solveMed mn mx < mx) ∧
    (∀ (lf : Nat) (mn mx : Int) (T2 : Table), (mx - mn).toNat < lf →
      ¬((solveLoop g book fuel P depth lf mn mx T2).1 <
        (solveLoop g book fuel P depth lf mn mx T2).2.1)) ∧
    (solve g book fuel P depth false T).1 = g.score P := by
  refine ⟨fun mn mx h => solveMed_bounds h,
    fun lf mn mx T2 h => solveLoop_exits g book fuel P depth lf mn mx T2 h,
    (solve_exact g hg book hb fuel P depth T hd hT hfuel).1⟩

/-- Witness for C3 (amended) at a concrete game with empty caches. -/
theorem claim3_binary_search_amended_witness :
    GameOK fullBoard ∧ BookSound fullBoard (fun _ => 0) ∧
    TableSound fullBoard (fun _ => 0) ∧ ((-1 : Int) < 0) ∧
    fullBoard.W * fullBoard.H < 43 + fullBoard.nbMoves () ∧
    ((∀ mn mx : Int, mn < mx → mn ≤ solveMed mn mx ∧ solveMed mn mx < mx) ∧
     (∀ (lf : Nat) (mn mx : Int) (T2 : Table), (mx - mn).toNat < lf →
       ¬((solveLoop fullBoard (fun _ => 0) 43 () (-1) lf mn mx T2).1 <
         (solveLoop fullBoard (fun _ => 0) 43 () (-1) lf mn mx T2).2.1)) ∧
     (solve fullBoard (fun _ => 0) 43 () (-1) false (fun _ => 0)).1
       = fullBoard.score ()) :=
  ⟨fullBoard_ok, bookSound_empty fullBoard, tableSound_empty fullBoard,
   by decide, by decide,
   claim3_binary_search_amended fullBoard (fun _ => 0) 43 () (-1) (fun _ => 0)
     fullBoard_ok (bookSound_empty fullBoard) (tableSound_empty fullBoard)
     (by decide) (by decide)⟩

/-- Counterexample for C4 as stated: on a position where the side to
move can win at once (10 moves played), `solve` with `weak = true`
returns `16`, which is not in `{-1, 0, 1}`. -/
theorem claim4_counterexample :
    (solve directWin (fun _ => 0) 1 () (-1) true (fun _ => 0)).1 = 16 ∧
    ¬((solve directWin (fun _ => 0) 1 () (-1) true (fun _ => 0)).1 = -1 ∨
      (solve directWin (fun _ => 0) 1 () (-1) true (fun _ => 0)).1 = 0 ∨
      (solve directWin (fun _ => 0) 1 () (-1) true (fun _ => 0)).1 = 1) := by
  refine ⟨by decide, by decide⟩

/-- C4 (amended): `solve` with `weak = true` classifies the outcome by
sign rather than always landing in `{-1, 0, 1}`: it returns exactly
`-1` when the true score is `≤ -1`, exactly `0` on a draw, and a value
between `1` and the true score when the true score is `≥ 1` (the value
exceeds `1` on immediate wins and on probes failing high past the weak
window). -/
theorem claim4_weak_classifies_amended (g : Game) (book : g.Pos → Int)
    (fuel : Nat) (P : g.Pos) (depth : Int) (T : Table)
    (hg : GameOK g) (hb : BookSound g book) (hT : TableSound g T)
    (hd : depth < 0) (hfuel : g.W * g.H < fuel + g.nbMoves P) :
    (g.score P ≤ -1 → (solve g book fuel P depth true T).1 = -1) ∧
    (g.score P = 0 → (solve g book fuel P depth true T).1 = 0) ∧
    (1 ≤ g.score P → 1 ≤ (solve g book fuel P depth true T).1 ∧
      (solve g book fuel P depth true T).1 ≤ g.score P) :=
  solve_weak_classifies g hg book hb fuel P depth T hd hT hfuel

/-- Witness for C4 (amended) on a drawn position: the weak solve
returns `0`. -/
theorem claim4_weak_classifies_amended_witness :
    GameOK fullBoard ∧ BookSound fullBoard (fun _ => 0) ∧
    TableSound fullBoard (fun _ => 0) ∧ ((-1 : Int) < 0) ∧
    fullBoard.W * fullBoard.H < 43 + fullBoard.nbMoves () ∧
    ((fullBoard.score () ≤ -1 →
        (solve fullBoard (fun _ => 0) 43 () (-1) true (fun _ => 0)).1 = -1) ∧
     (fullBoard.score () = 0 →
        (solve fullBoard (fun _ => 0) 43 () (-1) true (fun _ => 0)).1 = 0) ∧
     (1 ≤ fullBoard.score () →
        1 ≤ (solve fullBoard (fun _ => 0) 43 () (-1) true (fun _ => 0)).1 ∧
        (solve fullBoard (fun _ => 0) 43 () (-1) true (fun _ => 0)).1
          ≤ fullBoard.score ())) :=
  ⟨fullBoard_ok, bookSound_empty fullBoard, tableSound_empty fullBoard,
   by decide, by decide,
   claim4_weak_classifies_amended fullBoard (fun _ => 0) 43 () (-1) (fun _ => 0)
     fullBoard_ok (bookSound_empty fullBoard) (tableSound_empty fullBoard)
     (by decide) (by decide)⟩

/-- Counterexample for C5 as stated: for width 7 the constructor does
not compute `[3, 4, 2, 5, 1, 6, 0]` (it computes `order[1] = 2`, not
`4`), and the claimed formula with `⌈(i+1)/2⌉` would give
`order[0] = 4 ≠ 3`. -/
theorem claim5_counterexample :
    columnOrder 7 ≠ [3, 4, 2, 5, 1, 6, 0] ∧
    ¬(∀ i : Nat, i < 7 → (columnOrder 7).getD i 0
        = 7 / 2 + (1 - 2 * ((i : Int) % 2)) * (((i : Int) + 1 + 1) / 2)) := by
  refine ⟨by decide, fun h => ?_⟩
  have h0 := h 0 (by decide)
  revert h0
  decide

/-- C5 (amended): the constructor computes
`order[i] = W/2 + (1 - 2*(i mod 2)) * (i+1) / 2` under truncating
(C++) integer division — equivalently `W/2 ± ⌈i/2⌉`, not `⌈(i+1)/2⌉` —
and for width 7 the order is exactly `[3, 2, 4, 1, 5, 0, 6]`. -/
theorem claim5_column_order_amended :
    columnOrder 7 = [3, 2, 4, 1, 5, 0, 6] ∧
    (∀ i : Nat, i < 7 → (columnOrder 7).getD i 0
        = (7 : Int).tdiv 2
          + (1 - 2 * (i : Int).tmod 2) * (((i : Int) + 1).tdiv 2)) := by
  refine ⟨by decide, by decide⟩

/-- C6: on a position where the side to move can complete a win this
turn, `solve` returns the fastest-win score
`(W*H + 1 - movesPlayed) / 2` directly — the table is returned
untouched and no search runs — for every depth budget and both weak
settings, and that value is the position's true score. -/
theorem claim6_immediate_win (g : Game) (book : g.Pos → Int) (fuel : Nat)
    (P : g.Pos) (depth : Int) (weak : Bool) (T : Table)
    (hg : GameOK g) (hcw : g.canWinNext P = true) :
    solve g book fuel P depth weak T
      = ((g.cells + 1 - g.nbMoves P).tdiv 2, T) ∧
    (solve g book fuel P depth weak T).1 = g.score P := by
  unfold solve
  rw [if_pos hcw]
  exact ⟨rfl, (hg.win_score P hcw).symm⟩

/-- Witness for C6 on the immediate-win position: `solve` returns
`16` with the table unchanged, at depth `0` and `weak = false`. -/
theorem claim6_immediate_win_witness :
    GameOK directWin ∧ directWin.canWinNext () = true ∧
    (solve directWin (fun _ => 0) 1 () 0 false (fun _ => 0)
      = ((directWin.cells + 1 - directWin.nbMoves ()).tdiv 2, fun _ => 0) ∧
    (solve directWin (fun _ => 0) 1 () 0 false (fun _ => 0)).1
      = directWin.score ()) :=
  ⟨directWin_ok, rfl,
   claim6_immediate_win directWin (fun _ => 0) 1 () 0 false (fun _ => 0)
     directWin_ok rfl⟩

/-- C7: `solve` with an unlimited depth budget and `weak = false` is
deterministic and idempotent: a repeated call on an equal position,
reusing the transposition table populated by the first call, returns
the identical score (both calls return the true score). -/
theorem claim7_solve_idempotent (g : Game) (book : g.Pos → Int)
    (fuel : Nat) (P : g.Pos) (depth : Int) (T : Table)
    (hg : GameOK g) (hb : BookSound g book) (hT : TableSound g T)
    (hd : depth < 0) (hfuel : g.W * g.H < fuel + g.nbMoves P) :
    (solve g book fuel P depth false
        ((solve g book fuel P depth false T).2)).1
      = (solve g book fuel P depth false T).1 ∧
    (solve g book fuel P depth false T).1 = g.score P := by
  obtain ⟨h1, hT1⟩ := solve_exact g hg book hb fuel P depth T hd hT hfuel
  obtain ⟨h2, -⟩ := solve_exact g hg book hb fuel P depth
    ((solve g book fuel P depth false T).2) hd hT1 hfuel
  exact ⟨by rw [h1, h2], h1⟩

/-- Witness for C7 at a concrete game with empty caches. -/
theorem claim7_solve_idempotent_witness :
    GameOK fullBoard ∧ BookSound fullBoard (fun _ => 0) ∧
    TableSound fullBoard (fun _ => 0) ∧ ((-1 : Int) < 0) ∧
    fullBoard.W * fullBoard.H < 43 + fullBoard.nbMoves () ∧
    ((solve fullBoard (fun _ => 0) 43 () (-1) false
        ((solve fullBoard (fun _ => 0) 43 () (-1) false (fun _ => 0)).2)).1
      = (solve fullBoard (fun _ => 0) 43 () (-1) false (fun _ => 0)).1 ∧
     (solve fullBoard (fun _ => 0) 43 () (-1) false (fun _ => 0)).1
      = fullBoard.score ()) :=
  ⟨fullBoard_ok, bookSound_empty fullBoard, tableSound_empty fullBoard,
   by decide, by decide,
   claim7_solve_idempotent fullBoard (fun _ => 0) 43 () (-1) (fun _ => 0)
     fullBoard_ok (bookSound_empty fullBoard) (tableSound_empty fullBoard)
     (by decide) (by decide)⟩

/-- C8: loading an opening-book file whose recorded width byte differs
from the runtime board width aborts the load reporting the width field,
and leaves the book in the always-miss state: `get` returns `0` for
every position afterwards. -/
theorem claim8_book_bad_width
    (engine : Int → Int → List Int → Option (Nat → Int))
    (width height w : Int) (rest : List Int) (hw : w ≠ width) :
    loadBook engine width height (some (w :: rest))
      = (⟨width, height, -1, none⟩, LoadResult.badWidth) ∧
    ∀ (n k : Nat),
      ((loadBook engine width height (some (w :: rest))).1).get n k = 0 := by
  have h1 : loadBook engine width height (some (w :: rest))
      = (⟨width, height, -1, none⟩, LoadResult.badWidth) := by
    simp [loadBook, hw]
  refine ⟨h1, fun n k => ?_⟩
  rw [h1]
  show OpeningBook.get ⟨width, height, -1, none⟩ n k = 0
  unfold OpeningBook.get
  rw [if_pos (by omega : (n : Int) > -1)]

/-- Witness for C8: a file recording width 9 on a 7-wide board. -/
theorem claim8_book_bad_width_witness :
    ((9 : Int) ≠ 7) ∧
    (loadBook (fun _ _ _ => none) 7 6 (some [9, 6, 3, 4, 1, 21])
      = (⟨7, 6, -1, none⟩, LoadResult.badWidth) ∧
    ∀ (n k : Nat),
      ((loadBook (fun _ _ _ => none) 7 6 (some [9, 6, 3, 4, 1, 21])).1).get n k
        = 0) :=
  ⟨by decide,
   claim8_book_bad_width (fun _ _ _ => none) 7 6 9 [6, 3, 4, 1, 21] (by decide)⟩

/-- C9: on a position with no legal move (a full board), `getBestMove`
returns the sentinel `-1` rather than failing, for every depth budget
and both weak settings. -/
theorem claim9_no_move_sentinel (g : Game) (book : g.Pos → Int)
    (fuel : Nat) (P : g.Pos) (depth : Int) (weak : Bool) (T : Table)
    (h : g.legalMoves P = []) :
    getBestMove g book fuel P depth weak T = -1 := by
  unfold getBestMove
  rw [h]

/-- Witness for C9 on the full board, at depth `5` and `weak = true`. -/
theorem claim9_no_move_sentinel_witness :
    fullBoard.legalMoves () = [] ∧
    getBestMove fullBoard (fun _ => 0) 43 () 5 true (fun _ => 0) = -1 :=
  ⟨rfl, claim9_no_move_sentinel fullBoard (fun _ => 0) 43 () 5 true
    (fun _ => 0) rfl⟩

/-- C10: every byte `negamax` stores is nonzero: with the stored score
(for a lower-bound store) and the stored `alpha` (for an upper-bound
store) at least `MIN_SCORE`, a lower-bound store writes a byte
`≥ MAX_SCORE - MIN_SCORE + 2` — strictly above the upper-bound range —
and an upper-bound store writes a byte `≥ 1`, so neither can collide
with the absent sentinel `0`. -/
theorem claim10_store_nonzero (minS maxS s a : Int)
    (hs : minS ≤ s) (ha : minS ≤ a) (hms : minS ≤ maxS) :
    maxS - minS + 2 ≤ encodeLower minS maxS s ∧
    maxS - minS + 1 < encodeLower minS maxS s ∧
    encodeLower minS maxS s ≠ 0 ∧
    1 ≤ encodeUpper minS a ∧ encodeUpper minS a ≠ 0 := by
  unfold encodeLower encodeUpper
  refine ⟨by omega, by omega, by omega, by omega, by omega⟩

/-- Witness for C10 at the real constants, a stored lower bound of `-3`
and a stored upper bound of `7`. -/
theorem claim10_store_nonzero_witness :
    ((-18 : Int) ≤ -3) ∧ ((-18 : Int) ≤ 7) ∧ ((-18 : Int) ≤ 18) ∧
    (18 - (-18) + 2 ≤ encodeLower (-18) 18 (-3) ∧
     18 - (-18) + 1 < encodeLower (-18) 18 (-3) ∧
     encodeLower (-18) 18 (-3) ≠ 0 ∧
     1 ≤ encodeUpper (-18) 7 ∧ encodeUpper (-18) 7 ≠ 0) :=
  ⟨by decide, by decide, by decide,
   claim10_store_nonzero (-18) 18 (-3) 7 (by decide) (by decide) (by decide)⟩
